import Mathlib

/-!
Verification of the pingas pixel-flooding client (`src/main.rs`) against its
natural-language specification.

The embedding models:
- `build_address` — the pure IPv6 address encoder (an address is the list of
  its eight 16-bit segments, as passed to `Ipv6Addr::new`);
- `build_stream` — the per-pixel ping stream (its rate and its single
  destination address);
- the pixel enumeration and stream construction done in `main`
  (`image.enumerate_pixels().map(...)`), including the `u16` coordinate
  arithmetic `origin_x + x as u16`;
- the per-stream spawn schedule
  `Instant::now() + Duration::from_millis(stream_id / 4)`;
- the spawned task's reaction to probe outcomes under futures-0.1
  `for_each` semantics;
- the top of `main` (decode failure exits before any dispatch);
- a dispatch worker with an optional repeat-count budget, modelled from the
  spec (that feature has no code under `src/`).

Machine integers are `Nat` with explicit `% 2 ^ 16` where the Rust types
truncate or wrap; 8-bit and 16-bit bounds appear as hypotheses.
-/

/-- An RGBA pixel as destructured in `main`: `Rgba([r, g, b, a])`, each
channel an 8-bit value. -/
structure Rgba where
  r : Nat
  g : Nat
  b : Nat
  a : Nat
deriving DecidableEq, Repr

/-- The resized RGBA image: a `width × height` grid of pixels, `pix x y`
being the pixel at column `x`, row `y` (as in `image::ImageBuffer`). -/
structure Image where
  width : Nat
  height : Nat
  pix : Nat → Nat → Rgba

/-- `build_address` from `src/main.rs`: the eight 16-bit segments handed to
`Ipv6Addr::new(0x2001, 0x610, 0x1908, 0xa000, x, y, (b << 8) | g, (r << 8) | a)`.
Inputs are the Rust `u16`/`u8` values, embedded as `Nat`. -/
def build_address (x y r g b a : Nat) : List Nat :=
  [0x2001, 0x610, 0x1908, 0xa000, x, y, (b <<< 8) ||| g, (r <<< 8) ||| a]

/-- A per-pixel ping stream, reduced to the data it is built from: the ping
rate in milliseconds and the one destination address it pings forever
(`build_stream` in `src/main.rs` pings `build_address(x, y, r, g, b, a)`
every `rate` milliseconds). -/
structure PingStream where
  rate : Nat
  addr : List Nat
deriving DecidableEq, Repr

/-- `build_stream` from `src/main.rs`, stripped of the transport handle: it
records the rate and the address `build_address x y r g b a` that the stream
pings. -/
def build_stream (rate x y r g b a : Nat) : PingStream :=
  { rate := rate, addr := build_address x y r g b a }

/-- The canvas x coordinate computed in `main`: `origin_x + x as u16`.
The `u32` local coordinate is truncated to 16 bits and the `u16` addition
wraps modulo `2 ^ 16` (`origin_x` is a `u16`, so callers satisfy
`ox < 2 ^ 16`). -/
def canvasX (ox lx : Nat) : Nat :=
  (ox + lx % 65536) % 65536

/-- The canvas y coordinate computed in `main`: `origin_y + y as u16`, with
the same truncating/wrapping `u16` arithmetic as `canvasX`. -/
def canvasY (oy ly : Nat) : Nat :=
  (oy + ly % 65536) % 65536

/-- `image.enumerate_pixels()`: yields `(x, y, pixel)` for every pixel of the
grid in row-major order (`y` outer, `x` inner), as the `image` crate does for
an `ImageBuffer`. -/
def enumeratePixels (img : Image) : List (Nat × Nat × Rgba) :=
  (List.range img.height).flatMap fun y =>
    (List.range img.width).map fun x => (x, y, img.pix x y)

/-- The stream list built in `main`:
`image.enumerate_pixels().map(|(x, y, &Rgba([r, g, b, a]))| build_stream(&pinger, rate, origin_x + x as u16, origin_y + y as u16, r, g, b, a)).collect()`.
Every enumerated pixel yields exactly one stream; there is no alpha test. -/
def pingStreams (img : Image) (ox oy rate : Nat) : List PingStream :=
  (enumeratePixels img).map fun t =>
    build_stream rate (canvasX ox t.1) (canvasY oy t.2.1) t.2.2.r t.2.2.g t.2.2.b t.2.2.a

/-- The spawn loop in `main`: `streams.into_iter().enumerate()` with
`stream_start = Instant::now() + Duration::from_millis(stream_id as u64 / 4)`.
Each stream is paired with its start delay in milliseconds. -/
def spawnSchedule (img : Image) (ox oy rate : Nat) : List (Nat × PingStream) :=
  (pingStreams img ox oy rate).enum.map fun p => (p.1 / 4, p.2)

/-- Outcome of one probe attempt, as surfaced by the `tokio_ping` stream:
`success rtt` and `timeout` are `Ok` items (`Some(duration)` / `None`), a
hard send failure is a stream `Err`. -/
inductive ProbeOutcome where
  | success (rtt : Nat)
  | timeout
  | failure
deriving DecidableEq

/-- Whether an outcome is a hard stream error (not a timeout). -/
def isFailure : ProbeOutcome → Bool
  | ProbeOutcome.failure => true
  | _ => false

/-- Whether the task spawned in `main` still attempts probe number `k`,
given the outcome of every attempt. The spawned future is
`delay.into_stream().chain(stream.map_err(|err| eprintln!(..))).for_each(|_| Ok(()))`;
under futures-0.1 semantics `for_each` propagates the first `Err` its inner
stream yields, resolving the whole task, so probe `k` is attempted exactly
when no earlier attempt ended in a hard error. Timeouts are ordinary `Ok`
items (`tokio_ping` yields `None` for a timed-out ping) and do not end the
stream. -/
def attemptsProbe (outcomes : Nat → ProbeOutcome) (k : Nat) : Bool :=
  (List.range k).all fun j => !isFailure (outcomes j)

/-- Whether the task reports an error for probe `k`: the attempt happens and
its outcome is a hard error, which the `map_err` closure prints
(`eprintln!("{} :: {}", stream_id, err)`). -/
def reportsError (outcomes : Nat → ProbeOutcome) (k : Nat) : Bool :=
  attemptsProbe outcomes k && isFailure (outcomes k)

/-- Outcome sequence whose first probe fails hard and all later ones time
out. -/
def failFirst : Nat → ProbeOutcome :=
  fun k => if k = 0 then ProbeOutcome.failure else ProbeOutcome.timeout

/-- Outcome sequence in which every probe times out (the expected steady
state: the draw server never answers). -/
def allTimeout : Nat → ProbeOutcome :=
  fun _ => ProbeOutcome.timeout

/-- Result of decoding the input image: `image::open(filename)` either
yields an image or an error. -/
inductive DecodeResult where
  | ok (img : Image)
  | err

/-- Observable result of `main` relevant to start-up error handling:
whether the decode error was printed, the process exit code (if the process
exits early), and the streams that get dispatched. -/
structure RunResult where
  errorReported : Bool
  exitCode : Option Nat
  dispatched : List PingStream

/-- The top of `main`:
`image::open(filename).unwrap_or_else(|err| { eprintln!("Can't open file:\n{}", err); exit(1); })`
runs before `Pinger::new()` and before any stream is built or spawned; on
success the full stream list is built and dispatched. -/
def runMain (ox oy rate : Nat) : DecodeResult → RunResult
  | DecodeResult.err =>
      { errorReported := true, exitCode := some 1, dispatched := [] }
  | DecodeResult.ok img =>
      { errorReported := false, exitCode := none,
        dispatched := pingStreams img ox oy rate }

/-- Phase of a dispatch worker, from the spec's per-worker state machine
(Sending → Resting → Sending …, Done terminal). -/
inductive WPhase where
  | sending
  | resting
  | done
deriving DecidableEq

/-- Modelled from the spec: per-worker scheduling state of the Dispatch
Scheduler (assigned work unit, optional repeat-count budget, remaining
addresses of the current pass, completed pass count, phase). The
repeat-count budget has no code under `src/` — `src/main.rs` exposes no
repeat-count option — so the worker loop is modelled from spec §4.4. -/
structure Worker where
  unit : List (List Nat)
  budget : Option Nat
  pending : List (List Nat)
  passes : Nat
  phase : WPhase

/-- Modelled from the spec: whether a repeat-count budget is exhausted after
`p` completed passes (`none` = no budget configured, never exhausted). -/
def budgetExhausted : Option Nat → Nat → Bool
  | none, _ => false
  | some n, p => decide (n ≤ p)

/-- Modelled from the spec: one step of the worker loop. In `sending` the
worker emits the next address of its unit; when the pass is complete it
either exits to `done` (budget exhausted) or rests and starts the next pass;
`resting` returns to `sending`; `done` is terminal. -/
def wstep (w : Worker) : Worker × Option (List Nat) :=
  match w.phase with
  | WPhase.done => (w, none)
  | WPhase.resting => ({ w with phase := WPhase.sending }, none)
  | WPhase.sending =>
    match w.pending with
    | a :: rest => ({ w with pending := rest }, some a)
    | [] =>
      if budgetExhausted w.budget (w.passes + 1) then
        ({ w with passes := w.passes + 1, phase := WPhase.done }, none)
      else
        ({ w with passes := w.passes + 1, pending := w.unit, phase := WPhase.resting }, none)

/-- Run a worker for a given number of steps, collecting the addresses it
sends in order. -/
def wrun (w : Worker) : Nat → Worker × List (List Nat)
  | 0 => (w, [])
  | n + 1 =>
    ((wrun (wstep w).1 n).1, (wstep w).2.toList ++ (wrun (wstep w).1 n).2)

/-- Modelled from the spec: a freshly started worker (after its stagger
delay) about to send its first pass — unless its budget is already
exhausted at zero passes, in which case it is immediately done. -/
def initWorker (unit : List (List Nat)) (budget : Option Nat) : Worker :=
  if budgetExhausted budget 0 then
    { unit := unit, budget := budget, pending := [], passes := 0,
      phase := WPhase.done }
  else
    { unit := unit, budget := budget, pending := unit, passes := 0,
      phase := WPhase.sending }

/-- Steps that suffice for `N` complete passes over a unit of the given
length: each pass takes `len` sending steps, one pass-completion step and at
most one resting step. -/
def fuelFor (N len : Nat) : Nat :=
  N * (len + 2)

/-- Concrete 1×1 image whose only pixel is fully transparent (alpha 0). -/
def imgTransparent : Image :=
  { width := 1, height := 1, pix := fun _ _ => { r := 5, g := 6, b := 7, a := 0 } }

/-- Concrete 2×1 image (one row, two opaque pixels). -/
def imgRow2 : Image :=
  { width := 2, height := 1, pix := fun _ _ => { r := 0, g := 0, b := 0, a := 255 } }

/-- Concrete 1×2 image (two rows, one opaque pixel each). -/
def imgCol2 : Image :=
  { width := 1, height := 2, pix := fun _ _ => { r := 1, g := 2, b := 3, a := 255 } }

/-- Concrete 1×1 opaque image used in witnesses. -/
def imgOnePx : Image :=
  { width := 1, height := 1, pix := fun _ _ => { r := 9, g := 8, b := 7, a := 255 } }

/-! ## Helper lemmas -/

/-- Bitwise fact behind the two color segments of `build_address`: for an
8-bit low operand, `(hi <<< 8) ||| lo` is plain positional arithmetic. -/
theorem shift_or_eq (hi lo : Nat) (hlo : lo < 256) :
    (hi <<< 8) ||| lo = hi * 256 + lo := by
  have h : lo < 2 ^ 8 := hlo
  rw [Nat.shiftLeft_eq, Nat.mul_comm, ← Nat.mul_add_lt_is_or h hi]

/-- Length of a row-major double enumeration. -/
theorem flatMapRange_length {α : Type} (w : Nat) (f : Nat → Nat → α) :
    ∀ h : Nat,
      ((List.range h).flatMap fun y => (List.range w).map (f y)).length = h * w := by
  intro h
  induction h with
  | zero => simp
  | succ n ih =>
    rw [List.range_succ, List.flatMap_append, List.length_append, ih]
    simp [Nat.succ_mul]

/-- Element lookup in a row-major double enumeration: the entry at flat
index `y * w + x` is `f y x`. -/
theorem flatMapRange_getElem {α : Type} (w : Nat) :
    ∀ (h : Nat) (f : Nat → Nat → α) (y x : Nat), y < h → x < w →
      ((List.range h).flatMap fun r => (List.range w).map (f r))[y * w + x]? =
        some (f y x) := by
  intro h
  induction h with
  | zero => intro f y x hy hx; exact absurd hy (Nat.not_lt_zero y)
  | succ n ih =>
    intro f y x hy hx
    rw [List.range_succ_eq_map, List.flatMap_cons, List.flatMap_map]
    cases y with
    | zero =>
      rw [List.getElem?_append_left (by simpa using hx)]
      simp [List.getElem?_range hx]
    | succ y =>
      rw [List.getElem?_append_right (by simp; nlinarith)]
      have harith : (y + 1) * w + x - ((List.range w).map (f 0)).length = y * w + x := by
        simp [Nat.succ_mul]
        omega
      rw [harith]
      have := ih (fun r => f (r + 1)) y x (by omega) hx
      simpa using this

/-- `pingStreams` written as an explicit row-major double enumeration. -/
theorem pingStreams_eq_flatMap (img : Image) (ox oy rate : Nat) :
    pingStreams img ox oy rate =
      (List.range img.height).flatMap fun y =>
        (List.range img.width).map fun x =>
          build_stream rate (canvasX ox x) (canvasY oy y)
            (img.pix x y).r (img.pix x y).g (img.pix x y).b (img.pix x y).a := by
  unfold pingStreams enumeratePixels
  rw [List.map_flatMap]
  simp [List.map_map, Function.comp_def]

/-- The stream list has one entry per pixel of the resized image. -/
theorem pingStreams_length (img : Image) (ox oy rate : Nat) :
    (pingStreams img ox oy rate).length = img.height * img.width := by
  rw [pingStreams_eq_flatMap]
  exact flatMapRange_length img.width _ img.height

/-- The stream of pixel `(lx, ly)` sits at flat index `ly * width + lx` of
the stream list. -/
theorem pingStreams_getElem (img : Image) (ox oy rate lx ly : Nat)
    (hx : lx < img.width) (hy : ly < img.height) :
    (pingStreams img ox oy rate)[ly * img.width + lx]? =
      some (build_stream rate (canvasX ox lx) (canvasY oy ly)
        (img.pix lx ly).r (img.pix lx ly).g (img.pix lx ly).b (img.pix lx ly).a) := by
  rw [pingStreams_eq_flatMap]
  exact flatMapRange_getElem img.width img.height _ ly lx hy hx

/-! ## C1 -/

/-- C1: `build_address` returns the fixed 64-bit prefix `2001:0610:1908:a000`
followed by the 16-bit segments `x`, `y`, `(b << 8) | g` and `(r << 8) | a`
(in positional form `b * 256 + g` and `r * 256 + a`), and every segment fits
in 16 bits, so the result is a well-formed 128-bit address. -/
theorem build_address_layout (x y r g b a : Nat)
    (hx : x < 65536) (hy : y < 65536)
    (hr : r < 256) (hg : g < 256) (hb : b < 256) (ha : a < 256) :
    build_address x y r g b a =
      [0x2001, 0x610, 0x1908, 0xa000, x, y, b * 256 + g, r * 256 + a] ∧
    ∀ s ∈ build_address x y r g b a, s < 65536 := by
  have hbg := shift_or_eq b g hg
  have hra := shift_or_eq r a ha
  constructor
  · simp [build_address, hbg, hra]
  · intro s hs
    simp [build_address, hbg, hra] at hs
    rcases hs with h | h | h | h | h | h | h | h <;> omega

/-- Witness for C1 at the spec's concrete example:
`encode(x=10, y=20, r=255, g=0, b=128, a=255)` yields the prefix followed by
segments `000a`, `0014`, `8000`, `ffff`. -/
theorem build_address_layout_witness :
    build_address 10 20 255 0 128 255 =
      [0x2001, 0x610, 0x1908, 0xa000, 0x000a, 0x0014, 0x8000, 0xffff] := by
  have h := build_address_layout 10 20 255 0 128 255
    (by decide) (by decide) (by decide) (by decide) (by decide) (by decide)
  exact h.1.trans (by decide)

/-! ## C2 -/

/-- Counterexample to C2: `main` performs no alpha test, so the fully
transparent pixel of `imgTransparent` (alpha = 0) is encoded and gets its
own ping stream — the claim says it must never be encoded and never appear
in any work unit. -/
theorem transparent_pixel_encoded :
    (imgTransparent.pix 0 0).a = 0 ∧
    pingStreams imgTransparent 3 4 50 = [build_stream 50 3 4 5 6 7 0] := by
  decide

/-- C2 (amended): every pixel of the sampled grid — regardless of its alpha
value, including alpha = 0 — contributes exactly one stream, located at flat
row-major index `ly * width + lx` of the stream list, whose length is
exactly `width * height`. -/
theorem pixel_stream_exactly_once (img : Image) (ox oy rate lx ly : Nat)
    (hx : lx < img.width) (hy : ly < img.height) :
    (pingStreams img ox oy rate).length = img.width * img.height ∧
    (pingStreams img ox oy rate)[ly * img.width + lx]? =
      some (build_stream rate (canvasX ox lx) (canvasY oy ly)
        (img.pix lx ly).r (img.pix lx ly).g (img.pix lx ly).b (img.pix lx ly).a) := by
  refine ⟨?_, pingStreams_getElem img ox oy rate lx ly hx hy⟩
  rw [pingStreams_length]
  exact Nat.mul_comm img.height img.width

/-- Witness for C2 (amended) at the fully transparent one-pixel image: its
alpha-0 pixel still occupies exactly one slot of the stream list. -/
theorem pixel_stream_exactly_once_witness :
    (pingStreams imgTransparent 3 4 50).length =
      imgTransparent.width * imgTransparent.height ∧
    (pingStreams imgTransparent 3 4 50)[0 * imgTransparent.width + 0]? =
      some (build_stream 50 (canvasX 3 0) (canvasY 4 0)
        (imgTransparent.pix 0 0).r (imgTransparent.pix 0 0).g
        (imgTransparent.pix 0 0).b (imgTransparent.pix 0 0).a) :=
  pixel_stream_exactly_once imgTransparent 3 4 50 0 0 (by decide) (by decide)

/-! ## C3 -/

/-- C3 (code bug): under the futures-0.1 semantics of the combinator chain
spawned in `main`, every probe of an all-timeout stream is attempted (a
timeout is an ordinary item), but a hard send error — although reported by
the `map_err` closure — resolves the `for_each` future, so no later probe of
that stream is ever attempted. The code's own comment says such errors are
"simply ignored", and the spec says the worker continues; the code instead
terminates the pixel's stream on its first hard error. -/
theorem probe_error_ends_stream :
    (∀ n, attemptsProbe allTimeout n = true) ∧
    attemptsProbe failFirst 0 = true ∧
    reportsError failFirst 0 = true ∧
    attemptsProbe failFirst 1 = false ∧
    attemptsProbe failFirst 100 = false := by
  refine ⟨?_, by decide, by decide, by decide, by decide⟩
  intro n
  simp [attemptsProbe, allTimeout, isFailure]

/-! ## C4 -/

/-- Counterexample to C4: for the 2×1 image `imgRow2` (one row, both pixels
opaque) `main` creates two streams — one per pixel — not one work unit for
the row; the number of concurrent workers is not bounded by the image
height. -/
theorem per_pixel_units_exceed_height :
    ¬ (pingStreams imgRow2 0 0 50).length ≤ imgRow2.height ∧
    (pingStreams imgRow2 0 0 50).length = 2 ∧
    imgRow2.height = 1 := by
  decide

/-- C4 (amended): the builder produces exactly one work unit (one spawned
stream) per pixel of the resized image, alpha included, so the number of
concurrent workers equals `width * height` — the pixel count, not the row
count. -/
theorem stream_count_eq_pixel_count (img : Image) (ox oy rate : Nat) :
    (pingStreams img ox oy rate).length = img.width * img.height := by
  rw [pingStreams_length]
  exact Nat.mul_comm img.height img.width

/-! ## C5 -/

/-- Counterexample to C5: in the 1×2 image `imgCol2` the two streams belong
to rows 0 and 1 (the image is one pixel wide, so stream id equals row
index), yet both get spawn delay `0 / 4 = 0` and `1 / 4 = 0` milliseconds —
two workers of different rows begin their first pass at the same instant. -/
theorem same_instant_different_rows :
    (spawnSchedule imgCol2 0 0 50).map Prod.fst = [0, 0] ∧
    imgCol2.width = 1 ∧ imgCol2.height = 2 := by
  decide

/-- C5 (amended): the initial delay of a worker is
`floor(streamIndex / 4)` milliseconds, where `streamIndex = ly * width + lx`
is the pixel's row-major enumeration index — it is not a constant multiple
of the row index, and consecutive groups of four streams share one start
instant. -/
theorem stagger_delay_by_stream_index (img : Image) (ox oy rate lx ly : Nat)
    (hx : lx < img.width) (hy : ly < img.height) :
    (spawnSchedule img ox oy rate)[ly * img.width + lx]? =
      some ((ly * img.width + lx) / 4,
        build_stream rate (canvasX ox lx) (canvasY oy ly)
          (img.pix lx ly).r (img.pix lx ly).g (img.pix lx ly).b (img.pix lx ly).a) := by
  unfold spawnSchedule
  rw [List.getElem?_map, List.getElem?_enum,
    pingStreams_getElem img ox oy rate lx ly hx hy]
  rfl

/-- Witness for C5 (amended): in `imgCol2` the row-1 pixel is stream index 1
and gets delay `1 / 4 = 0` milliseconds. -/
theorem stagger_delay_by_stream_index_witness :
    (spawnSchedule imgCol2 0 0 50)[1 * imgCol2.width + 0]? =
      some ((1 * imgCol2.width + 0) / 4,
        build_stream 50 (canvasX 0 0) (canvasY 0 1)
          (imgCol2.pix 0 1).r (imgCol2.pix 0 1).g (imgCol2.pix 0 1).b
          (imgCol2.pix 0 1).a) :=
  stagger_delay_by_stream_index imgCol2 0 0 50 0 1 (by decide) (by decide)

/-! ## C7 -/

/-- C7: for an image whose rows all contain a visible pixel, the stream list
is ordered row-major: rows in top-to-bottom order, and within each row the
pixel streams in left-to-right order. -/
theorem row_major_order (img : Image) (ox oy rate : Nat)
    (_hvis : ∀ y, y < img.height → ∃ x, x < img.width ∧ 0 < (img.pix x y).a) :
    pingStreams img ox oy rate =
      (List.range img.height).flatMap fun y =>
        (List.range img.width).map fun x =>
          build_stream rate (canvasX ox x) (canvasY oy y)
            (img.pix x y).r (img.pix x y).g (img.pix x y).b (img.pix x y).a :=
  pingStreams_eq_flatMap img ox oy rate

/-- Witness for C7 at a concrete fully visible image. -/
theorem row_major_order_witness :
    pingStreams imgOnePx 7 9 50 =
      (List.range imgOnePx.height).flatMap fun y =>
        (List.range imgOnePx.width).map fun x =>
          build_stream 50 (canvasX 7 x) (canvasY 9 y)
            (imgOnePx.pix x y).r (imgOnePx.pix x y).g (imgOnePx.pix x y).b
            (imgOnePx.pix x y).a :=
  row_major_order imgOnePx 7 9 50 (fun y hy => ⟨0, by decide, by simp [imgOnePx]⟩)

/-! ## C8 -/

/-- C8: for every pixel whose canvas coordinates do not overflow 16 bits,
the sampler passes exactly `(originX + localX, originY + localY)` to the
address encoder. -/
theorem canvas_offset_addition (img : Image) (ox oy rate lx ly : Nat)
    (hx : lx < img.width) (hy : ly < img.height)
    (hox : ox + lx < 65536) (hoy : oy + ly < 65536) :
    (pingStreams img ox oy rate)[ly * img.width + lx]? =
      some (build_stream rate (ox + lx) (oy + ly)
        (img.pix lx ly).r (img.pix lx ly).g (img.pix lx ly).b (img.pix lx ly).a) := by
  rw [pingStreams_getElem img ox oy rate lx ly hx hy]
  have h1 : canvasX ox lx = ox + lx := by unfold canvasX; omega
  have h2 : canvasY oy ly = oy + ly := by unfold canvasY; omega
  rw [h1, h2]

/-- Witness for C8: the single pixel of `imgOnePx` drawn at origin
`(100, 200)` is encoded at canvas coordinates `(100, 200)`. -/
theorem canvas_offset_addition_witness :
    (pingStreams imgOnePx 100 200 50)[0 * imgOnePx.width + 0]? =
      some (build_stream 50 (100 + 0) (200 + 0)
        (imgOnePx.pix 0 0).r (imgOnePx.pix 0 0).g (imgOnePx.pix 0 0).b
        (imgOnePx.pix 0 0).a) :=
  canvas_offset_addition imgOnePx 100 200 50 0 0
    (by decide) (by decide) (by decide) (by decide)

/-! ## C9 -/

/-- C9: when the input image cannot be decoded, `main` reports the error and
exits with code 1, and no stream is ever built or dispatched. -/
theorem decode_failure_exits (ox oy rate : Nat) :
    (runMain ox oy rate DecodeResult.err).exitCode = some 1 ∧
    (runMain ox oy rate DecodeResult.err).dispatched = [] ∧
    (runMain ox oy rate DecodeResult.err).errorReported = true :=
  ⟨rfl, rfl, rfl⟩

/-! ## C10 -/

/-- C10: the canvas coordinate is computed by truncating the local
coordinate to 16 bits and adding it to the origin with wrapping `u16`
arithmetic — equal to `(ox + lx) % 2 ^ 16` — so an overflowing sum wraps
(e.g. `60000 + 10000 ↦ 4464`), and no range check confines the result to the
1920×1080 canvas (e.g. `1919 + 1000 ↦ 2919`, which exceeds 1920). -/
theorem canvas_coord_wraps :
    (∀ ox lx, ox < 65536 → canvasX ox lx = (ox + lx) % 65536) ∧
    canvasX 60000 10000 = 4464 ∧
    65535 < 60000 + 10000 ∧
    canvasX 1919 1000 = 2919 ∧
    1920 < canvasX 1919 1000 := by
  refine ⟨?_, by decide, by decide, by decide, by decide⟩
  intro ox lx h
  unfold canvasX
  omega

/-- Witness for C10: the universal wrap formula applied at the overflowing
input `ox = 60000`, `lx = 10000`. -/
theorem canvas_coord_wraps_witness :
    canvasX 60000 10000 = (60000 + 10000) % 65536 :=
  canvas_coord_wraps.1 60000 10000 (by decide)

/-! ## C6 -/

/-- A worker in the `done` phase stays put and sends nothing. -/
theorem wrun_done (u : List (List Nat)) (b : Option Nat)
    (pend : List (List Nat)) (p : Nat) :
    ∀ n, wrun ⟨u, b, pend, p, WPhase.done⟩ n =
      (⟨u, b, pend, p, WPhase.done⟩, []) := by
  intro n
  induction n with
  | zero => rfl
  | succ m ih => simp [wrun, wstep, ih]

/-- A sending worker first drains its pending addresses, emitting them in
order. -/
theorem wrun_drain (u : List (List Nat)) (b : Option Nat) (p : Nat) :
    ∀ (pend : List (List Nat)) (n : Nat),
      wrun ⟨u, b, pend, p, WPhase.sending⟩ (pend.length + n) =
        ((wrun ⟨u, b, [], p, WPhase.sending⟩ n).1,
          pend ++ (wrun ⟨u, b, [], p, WPhase.sending⟩ n).2) := by
  intro pend
  induction pend with
  | nil => intro n; simp
  | cons a rest ih =>
    intro n
    have hlen : (a :: rest).length + n = (rest.length + n) + 1 := by
      simp [List.length_cons]
      omega
    rw [hlen]
    simp [wrun, wstep, ih n]

/-- Completing a pass with a non-exhausted budget costs two silent steps
(pass completion into `resting`, then back to `sending` with a reloaded
unit). -/
theorem wrun_pass_continue (u : List (List Nat)) (b : Option Nat) (p n : Nat)
    (h : budgetExhausted b (p + 1) = false) :
    wrun ⟨u, b, [], p, WPhase.sending⟩ (2 + n) =
      wrun ⟨u, b, u, p + 1, WPhase.sending⟩ n := by
  have h2 : 2 + n = (n + 1) + 1 := by omega
  rw [h2]
  simp [wrun, wstep, h]

/-- Completing a pass that exhausts the budget sends the worker to `done`,
where any remaining steps do nothing. -/
theorem wrun_pass_finish (u : List (List Nat)) (b : Option Nat) (p n : Nat)
    (h : budgetExhausted b (p + 1) = true) :
    wrun ⟨u, b, [], p, WPhase.sending⟩ (n + 1) =
      (⟨u, b, [], p + 1, WPhase.done⟩, []) := by
  simp [wrun, wstep, h, wrun_done]

/-- With budget `some N` and `k ≥ 1` passes left (`p + k = N`), a sending
worker performs exactly the `k` remaining passes — each one the bit-for-bit
identical unit — and halts in `done`. -/
theorem wrun_passes_some (u : List (List Nat)) :
    ∀ (k N p : Nat), p + k = N → 1 ≤ k →
      wrun ⟨u, some N, u, p, WPhase.sending⟩ (k * (u.length + 2)) =
        ((⟨u, some N, [], N, WPhase.done⟩ : Worker), (List.replicate k u).flatten) := by
  intro k
  induction k with
  | zero => intro N p hpk h1; exact absurd h1 (by omega)
  | succ k ih =>
    intro N p hpk h1
    have hfuel : (k + 1) * (u.length + 2) = u.length + (k * (u.length + 2) + 2) := by
      ring
    rw [hfuel, wrun_drain u (some N) p u (k * (u.length + 2) + 2)]
    cases k with
    | zero =>
      have hb : budgetExhausted (some N) (p + 1) = true := by
        simp [budgetExhausted]
        omega
      have h2 : (0 * (u.length + 2) + 2 : Nat) = 1 + 1 := by ring
      rw [h2, wrun_pass_finish u (some N) p 1 hb]
      have hpN : p + 1 = N := by omega
      simp [hpN]
    | succ j =>
      have hb : budgetExhausted (some N) (p + 1) = false := by
        simp [budgetExhausted]
        omega
      have h2 : (j + 1) * (u.length + 2) + 2 = 2 + ((j + 1) * (u.length + 2)) := by
        ring
      rw [h2, wrun_pass_continue u (some N) p _ hb,
        ih N (p + 1) (by omega) (by omega)]
      simp [List.replicate_succ]

/-- With no budget, a sending worker just keeps accumulating identical
passes: after `k * (len + 2)` steps it has emitted exactly `k` copies of its
unit and is sending again. -/
theorem wrun_passes_none (u : List (List Nat)) :
    ∀ (k p : Nat),
      wrun ⟨u, none, u, p, WPhase.sending⟩ (k * (u.length + 2)) =
        ((⟨u, none, u, p + k, WPhase.sending⟩ : Worker), (List.replicate k u).flatten) := by
  intro k
  induction k with
  | zero => intro p; simp [wrun]
  | succ k ih =>
    intro p
    have hfuel : (k + 1) * (u.length + 2) = u.length + (2 + k * (u.length + 2)) := by
      ring
    rw [hfuel, wrun_drain u none p u (2 + k * (u.length + 2)),
      wrun_pass_continue u none p _ rfl, ih (p + 1)]
    have hp : p + 1 + k = p + (k + 1) := by omega
    simp [List.replicate_succ, hp]

/-- A worker whose budget is `none` is never in the `done` phase, no matter
how many steps it runs. -/
theorem wrun_none_not_done (n : Nat) :
    ∀ (u pend : List (List Nat)) (p : Nat) (ph : WPhase), ph ≠ WPhase.done →
      (wrun ⟨u, none, pend, p, ph⟩ n).1.phase ≠ WPhase.done := by
  induction n with
  | zero => intro u pend p ph hp; exact hp
  | succ m ih =>
    intro u pend p ph hp
    cases ph with
    | done => exact absurd rfl hp
    | resting => simpa [wrun, wstep] using ih u pend p WPhase.sending (by simp)
    | sending =>
      cases pend with
      | cons a rest => simpa [wrun, wstep] using ih u rest p WPhase.sending (by simp)
      | nil =>
        simpa [wrun, wstep, budgetExhausted] using
          ih u u (p + 1) WPhase.resting (by simp)

/-- C6 (spec-modelled; the repeat-count budget has no code under `src/`):
a worker started with repeat-count budget `N` sends exactly `N` complete
passes — bit-for-bit the same address sequence each pass — and then reaches
the terminal `done` phase; a worker started with no budget is never `done`,
and for every `N` it has emitted `N` full identical passes after enough
steps, so its send stream is infinite. -/
theorem worker_repeat_budget (u : List (List Nat)) (N : Nat) :
    (wrun (initWorker u (some N)) (fuelFor N u.length)).2 =
      (List.replicate N u).flatten ∧
    (wrun (initWorker u (some N)) (fuelFor N u.length)).1.phase = WPhase.done ∧
    (∀ n, (wrun (initWorker u none) n).1.phase ≠ WPhase.done) ∧
    (wrun (initWorker u none) (fuelFor N u.length)).2 =
      (List.replicate N u).flatten := by
  have hinitNone : initWorker u none = ⟨u, none, u, 0, WPhase.sending⟩ := by
    simp [initWorker, budgetExhausted]
  have hnone := wrun_passes_none u N 0
  refine ⟨?_, ?_, ?_, ?_⟩
  case _ =>
    cases N with
    | zero => simp [initWorker, budgetExhausted, fuelFor, wrun]
    | succ n =>
      have hinit : initWorker u (some (n + 1)) =
          ⟨u, some (n + 1), u, 0, WPhase.sending⟩ := by
        simp [initWorker, budgetExhausted]
      rw [hinit, fuelFor, wrun_passes_some u (n + 1) (n + 1) 0 (by omega) (by omega)]
  case _ =>
    cases N with
    | zero => simp [initWorker, budgetExhausted, fuelFor, wrun]
    | succ n =>
      have hinit : initWorker u (some (n + 1)) =
          ⟨u, some (n + 1), u, 0, WPhase.sending⟩ := by
        simp [initWorker, budgetExhausted]
      rw [hinit, fuelFor, wrun_passes_some u (n + 1) (n + 1) 0 (by omega) (by omega)]
  case _ =>
    intro n
    rw [hinitNone]
    exact wrun_none_not_done n u u 0 WPhase.sending (by simp)
  case _ =>
    rw [hinitNone, fuelFor]
    rw [show N * (u.length + 2) = N * (u.length + 2) from rfl]
    rw [wrun_passes_none u N 0]
